import Mathlib

/-!
Verification development for the call-resolution core of a code-graph
ingestion engine (`codebase_rag/parsers/call_processor.py`).

The definitions below are a shallow embedding of `CallProcessor`:
strings stay strings, the per-module import mapping, the function
registry and the class-inheritance table become association lists (the
Python dicts preserve insertion order, which matters for wildcard
iteration and for the suffix-fallback tie-break), and the collaborators
that live outside the provided sources (the type-inference engine, the
`resolve_class_name` utility and the registry trie) are abstracted as
context data or modelled from the specification where noted.
-/

/-! ## String helpers

Python string operations are re-implemented over `String.data` so that
every definition reduces inside the kernel. `splitDots` is Python's
`s.split(".")`, `strStartsWith` is `s.startswith(p)`, `containsChar` is
`c in s`, `intercalateStr` is `sep.join(l)`, `hasColonColon` is
`"::" in s`.
-/

def splitDotsAux : List Char → List Char → List String
  | [], acc => [String.mk acc.reverse]
  | c :: rest, acc =>
    if c = '.' then String.mk acc.reverse :: splitDotsAux rest []
    else splitDotsAux rest (c :: acc)

def splitDots (s : String) : List String :=
  splitDotsAux s.data []

def strStartsWith (s p : String) : Bool :=
  p.data.isPrefixOf s.data

def containsChar (s : String) (c : Char) : Bool :=
  s.data.contains c

def intercalateStr (sep : String) : List String → String
  | [] => ""
  | [x] => x
  | x :: rest => x ++ sep ++ intercalateStr sep rest

def hasCCAux : List Char → Bool
  | ':' :: ':' :: _ => true
  | _ :: rest => hasCCAux rest
  | [] => false

def hasColonColon (s : String) : Bool :=
  hasCCAux s.data

/-- Association-list lookup, the embedding of Python dict access
(`d[k]` guarded by `k in d`). Keys are compared left to right, the
first binding wins, mirroring dict semantics where keys are unique. -/
def alookup {α : Type} : List (String × α) → String → Option α
  | [], _ => none
  | (k, v) :: rest, key => if k = key then some v else alookup rest key

/-! ## The call-processor context

`CallCtx` packages the state the resolver reads.  The fields
`importMapping`, `functionRegistry` and `classInheritance` embed the
corresponding attributes of `CallProcessor`.  The three function fields
are collaborators whose implementation is not part of the provided
sources; they are abstracted as opaque-to-the-resolver data, exactly as
the resolver consumes them:
`resolveClassNameFn` embeds `utils.resolve_class_name`,
`inferExprReturnTypeFn` embeds
`TypeInferenceEngine._infer_expression_return_type`, and
`buildLocalTypesFn` embeds
`TypeInferenceEngine.build_local_variable_type_map`. -/
structure CallCtx where
  importMapping : List (String × List (String × String))
  functionRegistry : List (String × String)
  classInheritance : List (String × List String)
  resolveClassNameFn : String → String → Option String
  inferExprReturnTypeFn :
    String → String → Option (List (String × String)) → Option String

/-- Python truthiness-guarded lookup `local_var_types and k in
local_var_types`: an absent map and an empty map both fail. -/
def lvtLookup (lvt : Option (List (String × String))) (k : String) :
    Option String :=
  match lvt with
  | none => none
  | some [] => none
  | some l => alookup l k

/-- Modelled from the spec: the Function Registry's suffix query
`find_ending_with` (§4.1, reversed-component trie) is not in the
provided sources.  Per the spec it returns, in insertion order, every
registered QN whose dotted-component list ends with the query's
component list. -/
def findEndingWith (reg : List (String × String)) (tail : String) :
    List String :=
  (reg.map Prod.fst).filter (fun qn => (splitDots tail).isSuffixOf (splitDots qn))

/-- Embedding of `_calculate_import_distance`: the common-prefix loop
(`for i in range(min(...)): ... else break`) runs as an indexed
countdown, then the base distance, then the string-level `startswith`
bonus. -/
def cpGo (a b : List String) : Nat → Nat → Nat
  | _, 0 => 0
  | i, fuel + 1 =>
    if a.getD i "" = b.getD i "" then cpGo a b (i + 1) fuel + 1 else 0

def calculateImportDistance (candidateQn callerModuleQn : String) : Int :=
  let callerParts := splitDots callerModuleQn
  let candidateParts := splitDots candidateQn
  let commonPart := cpGo callerParts candidateParts 0
    (min callerParts.length candidateParts.length)
  let baseDistance : Int :=
    (max callerParts.length candidateParts.length : Int) - (commonPart : Int)
  if strStartsWith candidateQn
      (intercalateStr "." callerParts.dropLast ++ ".") then
    baseDistance - 1
  else baseDistance

/-- Stable ascending insertion by import distance, the embedding of
`possible_matches.sort(key=...)` (Python `list.sort` is stable, so ties
keep insertion order). -/
def insertByDist (moduleQn : String) (x : String) :
    List String → List String
  | [] => [x]
  | y :: ys =>
    if calculateImportDistance y moduleQn < calculateImportDistance x moduleQn
    then y :: insertByDist moduleQn x ys
    else x :: y :: ys

def sortByDist (moduleQn : String) : List String → List String
  | [] => []
  | x :: xs => insertByDist moduleQn x (sortByDist moduleQn xs)

/-! ## Inheritance walk (`_resolve_inherited_method`)

The Python queue loop has no a-priori bound, so the embedding takes
explicit fuel; `inheritedFuel` supplies enough for the loop never to
run out (proved below), and the outer wrapper discards the fuel layer.
The result of the fueled walk is `none` when fuel is exhausted,
`some r` when the loop finished with result `r`. -/

def addNewParents (visited queue : List String) :
    List String → List String × List String
  | [] => (visited, queue)
  | g :: rest =>
    if visited.contains g then addNewParents visited queue rest
    else addNewParents (visited ++ [g]) (queue ++ [g]) rest

def inheritedBFS (ctx : CallCtx) (methodName : String) :
    Nat → List String → List String → Option (Option (String × String))
  | 0, _, _ => none
  | _ + 1, [], _ => some none
  | fuel + 1, p :: queue, visited =>
    let pm := p ++ "." ++ methodName
    match alookup ctx.functionRegistry pm with
    | some k => some (some (k, pm))
    | none =>
      let gps := (alookup ctx.classInheritance p).getD []
      let vq := addNewParents visited queue gps
      inheritedBFS ctx methodName fuel vq.2 vq.1

def inhUniverse (ctx : CallCtx) : List String :=
  (ctx.classInheritance.map Prod.snd).flatten

def inheritedFuel (ctx : CallCtx) (classQn : String) : Nat :=
  (inhUniverse ctx).length +
    ((alookup ctx.classInheritance classQn).getD []).length + 1

def resolveInheritedMethod (ctx : CallCtx) (classQn methodName : String) :
    Option (String × String) :=
  match alookup ctx.classInheritance classQn with
  | none => none
  | some parents =>
    match inheritedBFS ctx methodName (inheritedFuel ctx classQn)
        parents parents.dedup with
    | some r => r
    | none => none

/-! ## Super calls (`_resolve_super_call`) -/

/-- The method-name extraction `call_name.split(".", 1)[1]` guarded by
`"." in call_name`. -/
def superMethodName (callName : String) : Option String :=
  match splitDots callName with
  | _ :: rest@(_ :: _) => some (intercalateStr "." rest)
  | _ => none

def resolveSuperCall (ctx : CallCtx) (callName _moduleQn : String)
    (classContext : Option String) : Option (String × String) :=
  match superMethodName callName with
  | none => none
  | some methodName =>
    match classContext with
    | none => none
    | some c =>
      if c = "" then none
      else
        match alookup ctx.classInheritance c with
        | none => none
        | some parents =>
          if parents.isEmpty then none
          else resolveInheritedMethod ctx c methodName

/-! ## Method chains (`_is_method_chain`, `_resolve_chained_call`) -/

def isMethodChain (callName : String) : Bool :=
  if containsChar callName '(' && containsChar callName ')' then
    let parts := splitDots callName
    let methodCalls :=
      (parts.filter (fun p => containsChar p '(' && containsChar p ')')).length
    decide (1 ≤ methodCalls) && decide (2 ≤ parts.length)
  else false

/-- The regex search for the final `.method` with `method` free of
dots and parentheses: succeeds exactly when the segment after the last
dot is nonempty and paren-free, yielding (object expression, final
method). -/
def chainFinalSplit (callName : String) : Option (String × String) :=
  match (splitDots callName).reverse with
  | [] => none
  | fin :: revInit =>
    if revInit.isEmpty then none
    else if fin ≠ "" && !containsChar fin '(' && !containsChar fin ')' then
      some (intercalateStr "." revInit.reverse, fin)
    else none

def resolveChainedCall (ctx : CallCtx) (callName moduleQn : String)
    (lvt : Option (List (String × String))) : Option (String × String) :=
  match chainFinalSplit callName with
  | none => none
  | some (objectExpr, finalMethod) =>
    match ctx.inferExprReturnTypeFn objectExpr moduleQn lvt with
    | none => none
    | some objectType =>
      let fullObjectType :=
        if containsChar objectType '.' then objectType
        else
          match ctx.resolveClassNameFn objectType moduleQn with
          | some rc => rc
          | none => objectType
      let mq := fullObjectType ++ "." ++ finalMethod
      match alookup ctx.functionRegistry mq with
      | some k => some (k, mq)
      | none => resolveInheritedMethod ctx fullObjectType finalMethod

/-! ## Main resolver (`_resolve_function_call`)

The embedding names each fall-through block of the Python function and
composes them with `orElseO`, which is the Python pattern of "if this
block hit an early `return`, stop, else continue to the next block". -/

def orElseO (a b : Option (String × String)) : Option (String × String) :=
  match a with
  | some r => some r
  | none => b

/-- Block 1a.1: direct import resolution. -/
def directImportHit (reg : List (String × String))
    (importMap : List (String × String)) (callName : String) :
    Option (String × String) :=
  match alookup importMap callName with
  | none => none
  | some importedQn =>
    match alookup reg importedQn with
    | none => none
    | some k => some (k, importedQn)

/-- Shared tail of both dotted branches: resolve a variable's type name
to a class QN via the import map or `resolve_class_name` (empty string
on failure, like the Python `or ""`), then probe the method exactly and
through the inheritance chain. -/
def instanceMethodHit (ctx : CallCtx) (importMap : List (String × String))
    (varType moduleQn methodName : String) : Option (String × String) :=
  let classQn :=
    match alookup importMap varType with
    | some cq => cq
    | none =>
      match ctx.resolveClassNameFn varType moduleQn with
      | some cq => cq
      | none => ""
  if classQn = "" then none
  else
    let mq := classQn ++ "." ++ methodName
    match alookup ctx.functionRegistry mq with
    | some k => some (k, mq)
    | none => resolveInheritedMethod ctx classQn methodName

/-- Block 1a.2: qualified dotted calls (`self.attr.method` patterns and
`Class.method` patterns). -/
def qualifiedDottedHit (ctx : CallCtx) (importMap : List (String × String))
    (callName moduleQn : String) (lvt : Option (List (String × String))) :
    Option (String × String) :=
  if containsChar callName '.' then
    let parts := splitDots callName
    if 3 ≤ parts.length ∧ parts.headD "" = "self" then
      let attributeRef := intercalateStr "." parts.dropLast
      let methodName := (parts.getLast?).getD ""
      match lvtLookup lvt attributeRef with
      | none => none
      | some varType =>
        instanceMethodHit ctx importMap varType moduleQn methodName
    else
      let className := parts.headD ""
      let methodName := intercalateStr "." parts.tail
      orElseO
        (match alookup importMap className with
         | none => none
         | some classQn =>
           let mq := classQn ++ "." ++ methodName
           match alookup ctx.functionRegistry mq with
           | none => none
           | some k => some (k, mq))
        (match lvtLookup lvt className with
         | none => none
         | some varType =>
           instanceMethodHit ctx importMap varType moduleQn methodName)
  else none

/-- Block 1b: the probe list for one wildcard entry. -/
def wildcardProbes (importedQn callName : String) : List String :=
  if hasColonColon importedQn then
    [importedQn ++ "::" ++ callName]
  else
    [importedQn ++ "." ++ callName, importedQn ++ "::" ++ callName]

def probeList (reg : List (String × String)) :
    List String → Option (String × String)
  | [] => none
  | qn :: rest =>
    match alookup reg qn with
    | some k => some (k, qn)
    | none => probeList reg rest

def wildcardResolve (reg : List (String × String)) :
    List (String × String) → String → Option (String × String)
  | [], _ => none
  | (localName, importedQn) :: rest, callName =>
    if strStartsWith localName "*" then
      match probeList reg (wildcardProbes importedQn callName) with
      | some r => some r
      | none => wildcardResolve reg rest callName
    else wildcardResolve reg rest callName

/-- Phase 1: the whole import-map block, which runs only when the
enclosing module has an entry in the import mapping. -/
def importPhase (ctx : CallCtx) (callName moduleQn : String)
    (lvt : Option (List (String × String))) : Option (String × String) :=
  match alookup ctx.importMapping moduleQn with
  | none => none
  | some importMap =>
    orElseO (directImportHit ctx.functionRegistry importMap callName)
      (orElseO (qualifiedDottedHit ctx importMap callName moduleQn lvt)
        (wildcardResolve ctx.functionRegistry importMap callName))

/-- Phase 2b: the trie-based suffix fallback. -/
def trieFallback (ctx : CallCtx) (callName moduleQn : String) :
    Option (String × String) :=
  match sortByDist moduleQn (findEndingWith ctx.functionRegistry callName) with
  | [] => none
  | best :: _ => some ((alookup ctx.functionRegistry best).getD "", best)

def resolveFunctionCall (ctx : CallCtx) (callName moduleQn : String)
    (lvt : Option (List (String × String))) (classContext : Option String) :
    Option (String × String) :=
  if strStartsWith callName "super()" then
    resolveSuperCall ctx callName moduleQn classContext
  else if containsChar callName '.' && isMethodChain callName then
    resolveChainedCall ctx callName moduleQn lvt
  else
    orElseO (importPhase ctx callName moduleQn lvt)
      (orElseO
        (let smq := moduleQn ++ "." ++ callName
         match alookup ctx.functionRegistry smq with
         | some k => some (k, smq)
         | none => none)
        (trieFallback ctx callName moduleQn))

/-! ## Syntax-tree model

A tree-sitter node carries a type, its source text and its children;
a child may be attached under a field name (tree-sitter field children
are ordinary children that additionally answer to
`child_by_field_name`). -/

inductive PNode where
  | node (ntype : String) (text : String)
      (children : List (Option String × PNode))
deriving Repr

def PNode.ntype : PNode → String
  | .node t _ _ => t

def PNode.text : PNode → String
  | .node _ s _ => s

def PNode.children : PNode → List (Option String × PNode)
  | .node _ _ ch => ch

def fieldLookup : List (Option String × PNode) → String → Option PNode
  | [], _ => none
  | (some k, c) :: rest, name =>
    if k = name then some c else fieldLookup rest name
  | (none, _) :: rest, name => fieldLookup rest name

/-- `child_by_field_name`. -/
def PNode.field (n : PNode) (name : String) : Option PNode :=
  fieldLookup n.children name

/-- The language-configuration record: which node-type names denote
modules, classes and functions, plus the node types the `calls` query
captures. -/
structure LangCfg where
  moduleNodeTypes : List String
  classNodeTypes : List String
  functionNodeTypes : List String
  callNodeTypes : List String
deriving Repr

/-- Embedding of `_get_call_target_name`. -/
def getCallTargetName (n : PNode) : Option String :=
  match n.field "function" with
  | some fc =>
    if fc.ntype = "identifier" then some fc.text
    else if fc.ntype = "attribute" then some fc.text
    else if fc.ntype = "member_expression" then some fc.text
    else
      match n.field "name" with
      | some nn => some nn.text
      | none => none
  | none =>
    match n.field "name" with
    | some nn => some nn.text
    | none => none

mutual

/-- All nodes of a subtree in document order (a tree-sitter query
capture enumerates matching nodes of the searched subtree). -/
def subtreeNodes : PNode → List PNode
  | .node t s ch => .node t s ch :: subtreeNodesL ch

def subtreeNodesL : List (Option String × PNode) → List PNode
  | [] => []
  | (_, c) :: rest => subtreeNodes c ++ subtreeNodesL rest

end

mutual

/-- All nodes of a subtree paired with their ancestor chain, nearest
enclosing node first (standing in for tree-sitter parent pointers). -/
def subAnc : PNode → List PNode → List (PNode × List PNode)
  | .node t s ch, anc =>
    (.node t s ch, anc) :: subAncL ch (.node t s ch :: anc)

def subAncL : List (Option String × PNode) → List PNode →
    List (PNode × List PNode)
  | [], _ => []
  | (_, c) :: rest, anc => subAnc c anc ++ subAncL rest anc

end

/-- An emitted `ensure_relationship_batch((caller_type, "qualified_name",
caller_qn), "CALLS", (callee_type, "qualified_name", callee_qn))`. -/
structure Edge where
  callerType : String
  callerQn : String
  calleeType : String
  calleeQn : String
deriving DecidableEq, Repr

mutual

def pnodeBeq : PNode → PNode → Bool
  | .node t1 s1 ch1, .node t2 s2 ch2 =>
    t1 == t2 && s1 == s2 && pnodeBeqL ch1 ch2

def pnodeBeqL : List (Option String × PNode) →
    List (Option String × PNode) → Bool
  | [], [] => true
  | (o1, c1) :: r1, (o2, c2) :: r2 =>
    o1 == o2 && pnodeBeq c1 c2 && pnodeBeqL r1 r2
  | [], _ :: _ => false
  | _ :: _, [] => false

end

mutual

theorem pnodeBeq_iff : ∀ a b : PNode, pnodeBeq a b = true ↔ a = b
  | .node t1 s1 ch1, .node t2 s2 ch2 => by
    simp only [pnodeBeq, Bool.and_eq_true, beq_iff_eq, PNode.node.injEq]
    rw [pnodeBeqL_iff ch1 ch2]
    try tauto

theorem pnodeBeqL_iff : ∀ a b : List (Option String × PNode),
    pnodeBeqL a b = true ↔ a = b
  | [], [] => by simp [pnodeBeqL]
  | (o1, c1) :: r1, (o2, c2) :: r2 => by
    simp only [pnodeBeqL, Bool.and_eq_true, beq_iff_eq, List.cons.injEq,
      Prod.mk.injEq]
    rw [pnodeBeq_iff c1 c2, pnodeBeqL_iff r1 r2]
    try tauto
  | [], _ :: _ => by simp [pnodeBeqL]
  | _ :: _, [] => by simp [pnodeBeqL]

end

instance : DecidableEq PNode := fun a b =>
  decidable_of_iff (pnodeBeq a b = true) (pnodeBeq_iff a b)

theorem fieldLookup_sizeOf {ch : List (Option String × PNode)}
    {name : String} {c : PNode} (h : fieldLookup ch name = some c) :
    sizeOf c < sizeOf ch := by
  induction ch with
  | nil => simp [fieldLookup] at h
  | cons hd rest ih =>
    obtain ⟨o, p⟩ := hd
    cases o with
    | none =>
      simp only [fieldLookup] at h
      have := ih h
      simp only [List.cons.sizeOf_spec, Prod.mk.sizeOf_spec]
      omega
    | some k =>
      simp only [fieldLookup] at h
      by_cases hk : k = name
      · simp only [hk, if_pos rfl] at h
        cases h
        simp only [List.cons.sizeOf_spec, Prod.mk.sizeOf_spec]
        omega
      · rw [if_neg hk] at h
        have := ih h
        simp only [List.cons.sizeOf_spec, Prod.mk.sizeOf_spec]
        omega

mutual

/-- Embedding of `_find_and_process_nested_calls`: on a `call` node,
first descend into its callee when that callee is an attribute
(`_process_nested_calls_in_node` inlined), then emit the node's own
edge, then recurse into every child. -/
def nestedCallEdges (ctx : CallCtx) (callerQn callerType moduleQn : String)
    (lvt : Option (List (String × String))) (cc : Option String) :
    PNode → List Edge
  | .node t s ch =>
    (if t = "call" then
      (match hf : fieldLookup ch "function" with
       | some fc =>
         if fc.ntype = "attribute" then
           nestedCallEdges ctx callerQn callerType moduleQn lvt cc fc
         else []
       | none => []) ++
      (match getCallTargetName (.node t s ch) with
       | some cn =>
         if cn = "" then []
         else
           match resolveFunctionCall ctx cn moduleQn lvt cc with
           | some kq => [Edge.mk callerType callerQn kq.1 kq.2]
           | none => []
       | none => [])
     else []) ++ nestedCallEdgesL ctx callerQn callerType moduleQn lvt cc ch
termination_by n => (sizeOf n, 1)
decreasing_by
  · have := fieldLookup_sizeOf hf
    simp only [PNode.node.sizeOf_spec]
    exact Prod.Lex.left _ _ (by omega)
  · simp only [PNode.node.sizeOf_spec]
    exact Prod.Lex.left _ _ (by omega)

def nestedCallEdgesL (ctx : CallCtx)
    (callerQn callerType moduleQn : String)
    (lvt : Option (List (String × String))) (cc : Option String) :
    List (Option String × PNode) → List Edge
  | [] => []
  | (_, c) :: rest =>
    nestedCallEdges ctx callerQn callerType moduleQn lvt cc c ++
      nestedCallEdgesL ctx callerQn callerType moduleQn lvt cc rest
termination_by l => (sizeOf l, 0)
decreasing_by
  · simp only [List.cons.sizeOf_spec, Prod.mk.sizeOf_spec]
    exact Prod.Lex.left _ _ (by omega)
  · simp only [List.cons.sizeOf_spec, Prod.mk.sizeOf_spec]
    exact Prod.Lex.left _ _ (by omega)

end

/-- The top-level `_process_nested_calls_in_node`: for a captured call
site, descend into its callee expression when that callee is an
attribute. -/
def callSiteNestedEdges (ctx : CallCtx)
    (callerQn callerType moduleQn : String)
    (lvt : Option (List (String × String))) (cc : Option String)
    (n : PNode) : List Edge :=
  match n.field "function" with
  | some fc =>
    if fc.ntype = "attribute" then
      nestedCallEdges ctx callerQn callerType moduleQn lvt cc fc
    else []
  | none => []

/-- One captured call site's contribution in `_ingest_function_calls`:
the nested descent first, then the site's own edge when the callee name
extracts and resolves. -/
def callSiteEdges (ctx : CallCtx) (callerQn callerType moduleQn : String)
    (lvt : Option (List (String × String))) (cc : Option String)
    (c : PNode) : List Edge :=
  callSiteNestedEdges ctx callerQn callerType moduleQn lvt cc c ++
    (match getCallTargetName c with
     | some cn =>
       if cn = "" then []
       else
         match resolveFunctionCall ctx cn moduleQn lvt cc with
         | some kq => [Edge.mk callerType callerQn kq.1 kq.2]
         | none => []
     | none => [])

/-- The loop over the captured call nodes in `_ingest_function_calls`. -/
def ingestLoop (ctx : CallCtx) (callerQn callerType moduleQn : String)
    (lvt : Option (List (String × String))) (cc : Option String) :
    List PNode → List Edge
  | [] => []
  | c :: rest =>
    callSiteEdges ctx callerQn callerType moduleQn lvt cc c ++
      ingestLoop ctx callerQn callerType moduleQn lvt cc rest

/-- `build_local_variable_type_map` is a collaborator outside the
provided sources; the ingest embedding takes the per-caller local
variable type map as an argument supplied by it. -/
def ingestFunctionCalls (cfg : LangCfg) (ctx : CallCtx)
    (localTypes : List (String × String)) (callerNode : PNode)
    (callerQn callerType moduleQn : String) (cc : Option String) :
    List Edge :=
  ingestLoop ctx callerQn callerType moduleQn (some localTypes) cc
    ((subtreeNodes callerNode).filter
      (fun m => cfg.callNodeTypes.contains m.ntype))

/-- Embedding of `_is_method`: walk the ancestor chain; stop at a
module node, report a method on reaching a class node. -/
def isMethodAnc (cfg : LangCfg) : List PNode → Bool
  | [] => false
  | a :: rest =>
    if cfg.moduleNodeTypes.contains a.ntype then false
    else if cfg.classNodeTypes.contains a.ntype then true
    else isMethodAnc cfg rest

def assembleQN (moduleQn : String) (parts : List String)
    (funcName : String) : String :=
  if parts.isEmpty then moduleQn ++ "." ++ funcName
  else moduleQn ++ "." ++ intercalateStr "." parts ++ "." ++ funcName

def buildQNGo (cfg : LangCfg) (moduleQn funcName : String) :
    List PNode → List String → Option String
  | [], parts => some (assembleQN moduleQn parts funcName)
  | a :: rest, parts =>
    if cfg.moduleNodeTypes.contains a.ntype then
      some (assembleQN moduleQn parts funcName)
    else if cfg.functionNodeTypes.contains a.ntype then
      match a.field "name" with
      | some nn => buildQNGo cfg moduleQn funcName rest (nn.text :: parts)
      | none => buildQNGo cfg moduleQn funcName rest parts
    else if cfg.classNodeTypes.contains a.ntype then none
    else buildQNGo cfg moduleQn funcName rest parts

/-- Embedding of `_build_nested_qualified_name`: collect the names of
enclosing function nodes up to the module node, refuse (return `none`)
on meeting a class node; a missing parent also returns `none`. -/
def buildNestedQN (cfg : LangCfg) (anc : List PNode)
    (moduleQn funcName : String) : Option String :=
  match anc with
  | [] => none
  | _ => buildQNGo cfg moduleQn funcName anc []

/-- Embedding of `_process_calls_in_functions`: every captured function
node that is not a method and has a name is ingested under its
nested qualified name with caller type `Function`. -/
def processCallsInFunctions (cfg : LangCfg) (ctx : CallCtx)
    (localTypes : List (String × String)) (moduleQn : String)
    (root : PNode) : List Edge :=
  (subAnc root []).flatMap (fun p =>
    if cfg.functionNodeTypes.contains p.1.ntype then
      if isMethodAnc cfg p.2 then []
      else
        match p.1.field "name" with
        | some nn =>
          match buildNestedQN cfg p.2 moduleQn nn.text with
          | some fq =>
            ingestFunctionCalls cfg ctx localTypes p.1 fq "Function"
              moduleQn none
          | none => []
        | none => []
    else [])

/-- Embedding of `_process_calls_in_classes`: for every captured class
node, every function node captured inside its body is ingested under
`class_qn.method_name` with caller type `Method` and the class QN as
class context. -/
def processCallsInClasses (cfg : LangCfg) (ctx : CallCtx)
    (localTypes : List (String × String)) (moduleQn : String)
    (root : PNode) : List Edge :=
  (subtreeNodes root).flatMap (fun cn =>
    if cfg.classNodeTypes.contains cn.ntype then
      match cn.field "name" with
      | some nn =>
        match cn.field "body" with
        | some body =>
          (subtreeNodes body).flatMap (fun mn =>
            if cfg.functionNodeTypes.contains mn.ntype then
              match mn.field "name" with
              | some mnn =>
                ingestFunctionCalls cfg ctx localTypes mn
                  (moduleQn ++ "." ++ nn.text ++ "." ++ mnn.text) "Method"
                  moduleQn (some (moduleQn ++ "." ++ nn.text))
              | none => []
            else [])
        | none => []
      | none => []
    else [])

/-- Embedding of `process_calls_in_file` after the module QN is fixed:
the function pass, then the class pass. -/
def processCallsForModule (cfg : LangCfg) (ctx : CallCtx)
    (localTypes : List (String × String)) (moduleQn : String)
    (root : PNode) : List Edge :=
  processCallsInFunctions cfg ctx localTypes moduleQn root ++
    processCallsInClasses cfg ctx localTypes moduleQn root

/-- The caller qualified names handed to `_ingest_function_calls`, in
invocation order (function pass, then class pass). -/
def callerInvocationQns (cfg : LangCfg) (moduleQn : String)
    (root : PNode) : List String :=
  ((subAnc root []).filterMap (fun p =>
    if cfg.functionNodeTypes.contains p.1.ntype then
      if isMethodAnc cfg p.2 then none
      else
        match p.1.field "name" with
        | some nn => buildNestedQN cfg p.2 moduleQn nn.text
        | none => none
    else none)) ++
  ((subtreeNodes root).flatMap (fun cn =>
    if cfg.classNodeTypes.contains cn.ntype then
      match cn.field "name" with
      | some nn =>
        match cn.field "body" with
        | some body =>
          (subtreeNodes body).filterMap (fun mn =>
            if cfg.functionNodeTypes.contains mn.ntype then
              match mn.field "name" with
              | some mnn => some (moduleQn ++ "." ++ nn.text ++ "." ++ mnn.text)
              | none => none
            else none)
        | none => []
      | none => []
    else []))

/-- The names of the enclosing function and class scopes of a node,
nearest first, stopping at the module node. -/
def enclosingScopeNames (cfg : LangCfg) : List PNode → List String
  | [] => []
  | a :: rest =>
    if cfg.moduleNodeTypes.contains a.ntype then []
    else if cfg.functionNodeTypes.contains a.ntype ||
        cfg.classNodeTypes.contains a.ntype then
      match a.field "name" with
      | some nn => nn.text :: enclosingScopeNames cfg rest
      | none => enclosingScopeNames cfg rest
    else enclosingScopeNames cfg rest

/-- Modelled from the spec: the Pass 1 Structure Scanner (§4.5), which
populates the Function Registry, is not in the provided sources.  Per
the spec, the qualified name of a function concatenates all enclosing
function and class names in source order between the module QN and the
function's own name, and a function whose nearest enclosing scope is a
class is a Method, otherwise a Function. -/
def scannerKind (cfg : LangCfg) : List PNode → String
  | [] => "Function"
  | a :: rest =>
    if cfg.classNodeTypes.contains a.ntype then "Method"
    else if cfg.functionNodeTypes.contains a.ntype then "Function"
    else if cfg.moduleNodeTypes.contains a.ntype then "Function"
    else scannerKind cfg rest

def scannerQN (cfg : LangCfg) (moduleQn : String) (anc : List PNode)
    (name : String) : String :=
  assembleQN moduleQn (enclosingScopeNames cfg anc).reverse name

/-- Modelled from the spec: the full registry Pass 1 builds for one
module (every named function node, with its §4.5 qualified name and
kind). -/
def scannerRegistry (cfg : LangCfg) (moduleQn : String) (root : PNode) :
    List (String × String) :=
  (subAnc root []).filterMap (fun p =>
    if cfg.functionNodeTypes.contains p.1.ntype then
      match p.1.field "name" with
      | some nn =>
        some (scannerQN cfg moduleQn p.2 nn.text, scannerKind cfg p.2)
      | none => none
    else none)

/-! ## Spec-side definitions for comparison

These two definitions follow the specification's words (not the code)
and exist only to be compared against `calculateImportDistance`. -/

def specCommonPrefLen : List String → List String → Nat
  | a :: as, b :: bs => if a = b then specCommonPrefLen as bs + 1 else 0
  | [], _ => 0
  | _ :: _, [] => 0

/-- The import distance exactly as the claim words it: base distance
minus 1 exactly when the candidate is a direct child of the caller's
parent package (same component length, same components up to the
last). -/
def specClaimedDistance (candidateQn callerModuleQn : String) : Int :=
  let a := splitDots callerModuleQn
  let b := splitDots candidateQn
  let base : Int := (max a.length b.length : Int) - specCommonPrefLen a b
  if b.length = a.length ∧ b.dropLast = a.dropLast then base - 1 else base

/-- The amended import distance: base distance minus 1 exactly when the
candidate QN string starts with the caller's parent package joined by
dots plus a trailing dot (true for direct children and equally for
deeper descendants). -/
def specAmendedDistance (candidateQn callerModuleQn : String) : Int :=
  let a := splitDots callerModuleQn
  let b := splitDots candidateQn
  let base : Int := (max a.length b.length : Int) - specCommonPrefLen a b
  if strStartsWith candidateQn (intercalateStr "." a.dropLast ++ ".") then
    base - 1
  else base

/-- Ancestor relation generated by the class-inheritance table:
reachability through declared parent lists. -/
inductive IsAncestor (inh : List (String × List String)) (root : String) :
    String → Prop
  | direct {p : String} {parents : List String} :
      alookup inh root = some parents → p ∈ parents → IsAncestor inh root p
  | step {q p : String} {parents : List String} :
      IsAncestor inh root q → alookup inh q = some parents →
      p ∈ parents → IsAncestor inh root p

/-! ## Concrete fixtures -/

def cfgPy : LangCfg :=
  LangCfg.mk ["module"] ["class_definition"] ["function_definition"] ["call"]

def noResolveClass : String → String → Option String := fun _ _ => none

def noInferReturn :
    String → String → Option (List (String × String)) → Option String :=
  fun _ _ _ => none

/-- `def f(): pass` at module level. -/
def nFFn : PNode :=
  PNode.node "function_definition" "def f"
    [(some "name", PNode.node "identifier" "f" []),
     (some "body", PNode.node "block" "" [])]

/-- The call site `f()`. -/
def nCallF : PNode :=
  PNode.node "call" "f()"
    [(some "function", PNode.node "identifier" "f" [])]

/-- `def inner(): f()` nested inside method `m`. -/
def nInnerFn : PNode :=
  PNode.node "function_definition" "def inner"
    [(some "name", PNode.node "identifier" "inner" []),
     (some "body", PNode.node "block" "" [(none, nCallF)])]

def nMFn : PNode :=
  PNode.node "function_definition" "def m"
    [(some "name", PNode.node "identifier" "m" []),
     (some "body", PNode.node "block" "" [(none, nInnerFn)])]

def nCCls : PNode :=
  PNode.node "class_definition" "class C"
    [(some "name", PNode.node "identifier" "C" []),
     (some "body", PNode.node "block" "" [(none, nMFn)])]

/-- Module `M`: `def f(): pass` then `class C: def m(): def inner(): f()`. -/
def nRootM : PNode :=
  PNode.node "module" "" [(none, nFFn), (none, nCCls)]

def ctxNested : CallCtx :=
  CallCtx.mk [] (scannerRegistry cfgPy "M" nRootM) [] noResolveClass
    noInferReturn

/-- Registry for the wildcard scenario: one unrelated `f` plus the
dot-joined wildcard target. -/
def regWild : List (String × String) :=
  [("zzz.f", "Function"), ("a::b.f", "Function")]

def ctxWild : CallCtx :=
  CallCtx.mk [("M", [("*w", "a::b")])] regWild [] noResolveClass
    noInferReturn

/-- Context for the Phase 3 scenario where the enclosing module has no
import-map entry at all; `resolve_class_name` knows `Repo`. -/
def ctxNoImportEntry : CallCtx :=
  CallCtx.mk [] [("proj.m.Repo.find_by_id", "Method")] []
    (fun n _ => if n = "Repo" then some "proj.m.Repo" else none)
    noInferReturn

/-- The same scenario with the module present in the import mapping
(spec scenario 3: `from m import Repo`). -/
def ctxImportEntry : CallCtx :=
  CallCtx.mk [("proj.u", [("Repo", "proj.m.Repo")])]
    [("proj.m.Repo.find_by_id", "Method")] [] noResolveClass noInferReturn

/-- The same scenario resolved through `resolve_class_name` instead of
the import map: module `proj.u` has an (empty) import-map entry, `Repo`
is a same-module class known to `resolve_class_name`, and
`proj.u.Repo.find_by_id` is registered. -/
def ctxClassNameRoute : CallCtx :=
  CallCtx.mk [("proj.u", [])] [("proj.u.Repo.find_by_id", "Method")] []
    (fun n m =>
      if n = "Repo" && m = "proj.u" then some "proj.u.Repo" else none)
    noInferReturn

/-- A cyclic inheritance table (`Car → Vehicle → Car`) with
`Vehicle.start_engine` registered. -/
def ctxCyc : CallCtx :=
  CallCtx.mk [] [("p.v.Vehicle.start_engine", "Method")]
    [("p.v.Car", ["p.v.Vehicle"]), ("p.v.Vehicle", ["p.v.Car"])]
    noResolveClass noInferReturn

/-- The spec's super-call scenario: `Car(Vehicle)` in `project.v` with
`Vehicle.start_engine` registered. -/
def ctxCar : CallCtx :=
  CallCtx.mk [] [("project.v.Vehicle.start_engine", "Method")]
    [("project.v.Car", ["project.v.Vehicle"])] noResolveClass noInferReturn

/-- An empty-tables context. -/
def ctxTriv : CallCtx := CallCtx.mk [] [] [] noResolveClass noInferReturn

/-- A registry knowing only `M.g`, and two call sites `h()` (does not
resolve) and `g()` (resolves in-module). -/
def ctxG : CallCtx :=
  CallCtx.mk [] [("M.g", "Function")] [] noResolveClass noInferReturn

def nCallG : PNode :=
  PNode.node "call" "g()"
    [(some "function", PNode.node "identifier" "g" [])]

def nCallH : PNode :=
  PNode.node "call" "h()"
    [(some "function", PNode.node "identifier" "h" [])]

/-- The attribute expression `f().g` whose object is the call `f()`. -/
def nAttrFG : PNode :=
  PNode.node "attribute" "f().g"
    [(some "object", nCallF),
     (some "attribute", PNode.node "identifier" "g" [])]

/-- The outer call `f().g()`: its callee is the attribute `f().g`. -/
def nOuterFG : PNode :=
  PNode.node "call" "f().g()" [(some "function", nAttrFG)]

/-- `def h(): f().g()`. -/
def nCallerH : PNode :=
  PNode.node "function_definition" "def h"
    [(some "name", PNode.node "identifier" "h" []),
     (some "body", PNode.node "block" "" [(none, nOuterFG)])]

def ctxF : CallCtx :=
  CallCtx.mk [] [("M.f", "Function")] [] noResolveClass noInferReturn

/-! ## Theorems

The claim theorems and their supporting lemmas. -/

theorem cpGo_spec (a b : List String) :
    ∀ fuel i, i + fuel ≤ min a.length b.length →
      cpGo a b i fuel =
        specCommonPrefLen ((a.drop i).take fuel) ((b.drop i).take fuel) := by
  intro fuel
  induction fuel with
  | zero => intro i _; simp [cpGo, specCommonPrefLen]
  | succ fuel ih =>
    intro i hle
    have ha : i < a.length := by omega
    have hb : i < b.length := by omega
    rw [List.drop_eq_getElem_cons ha, List.drop_eq_getElem_cons hb]
    rw [List.take_succ_cons, List.take_succ_cons]
    rw [cpGo]
    rw [List.getD_eq_getElem a "" ha, List.getD_eq_getElem b "" hb]
    simp only [specCommonPrefLen]
    by_cases h : a[i] = b[i]
    · rw [if_pos h, if_pos h, ih (i + 1) (by omega)]
    · rw [if_neg h, if_neg h]

theorem specCommonPrefLen_nil_right : ∀ l : List String,
    specCommonPrefLen l [] = 0 := by
  intro l; cases l <;> simp [specCommonPrefLen]

theorem specCommonPrefLen_take (a : List String) :
    ∀ b m, min a.length b.length ≤ m →
      specCommonPrefLen (a.take m) (b.take m) = specCommonPrefLen a b := by
  induction a with
  | nil => intro b m _; simp [specCommonPrefLen]
  | cons x as ih =>
    intro b m hm
    cases b with
    | nil => simp [specCommonPrefLen_nil_right]
    | cons y bs =>
      have : 1 ≤ m := by simp at hm; omega
      obtain ⟨m', rfl⟩ : ∃ m', m = m' + 1 := ⟨m - 1, by omega⟩
      rw [List.take_succ_cons, List.take_succ_cons]
      simp only [specCommonPrefLen]
      by_cases h : x = y
      · rw [if_pos h, if_pos h, ih bs m' (by simp at hm; omega)]
      · rw [if_neg h, if_neg h]

theorem cpGo_eq_specCommonPrefLen (a b : List String) :
    cpGo a b 0 (min a.length b.length) = specCommonPrefLen a b := by
  rw [cpGo_spec a b (min a.length b.length) 0 (by omega)]
  simp only [List.drop_zero]
  exact specCommonPrefLen_take a b (min a.length b.length) le_rfl

/-- C3 counterexample: for caller module `p.a.b` and candidate
`p.a.c.d.e` (a deeper descendant of the parent package `p.a`, not a
direct child), the code still subtracts 1 — it computes distance 2
where the claim's formula gives 3. -/
theorem c3_distance_counterexample :
    calculateImportDistance "p.a.c.d.e" "p.a.b" = 2 ∧
      specClaimedDistance "p.a.c.d.e" "p.a.b" = 3 := by
  decide

/-- C3 (amended): the computed import distance equals
`max(len A, len B) - commonPrefixLen` minus 1 exactly when the
candidate QN string starts with the caller's parent package joined by
dots plus a trailing dot — which holds for direct children of the
caller's parent package and equally for its deeper descendants. -/
theorem c3_import_distance_amended (candidateQn callerModuleQn : String) :
    calculateImportDistance candidateQn callerModuleQn =
      specAmendedDistance candidateQn callerModuleQn := by
  unfold calculateImportDistance specAmendedDistance
  dsimp only
  rw [cpGo_eq_specCommonPrefLen]

/-- C5 evaluated at the failing input: in module `M` containing
`class C` whose method `m` contains a nested `def inner`, the class
pass hands `_ingest_function_calls` the caller QN `M.C.inner` for
`inner` (flattening away the enclosing method `m`), never the
spec-mandated `M.C.m.inner` — which is exactly the QN the Pass 1
scanner registers for `inner`. -/
theorem c5_nested_caller_qn_flattened :
    callerInvocationQns cfgPy "M" nRootM = ["M.f", "M.C.m", "M.C.inner"] ∧
      alookup (scannerRegistry cfgPy "M" nRootM) "M.C.m.inner" =
        some "Function" := by
  decide

/-- C1 evaluated at the failing input: with the Function Registry
populated by the (spec-modelled) Pass 1 scanner for module `M`, the
call processor emits the CALLS edge `M.C.inner → M.f` whose source
qualified name is not a key of the registry. -/
theorem c1_calls_source_not_registered :
    (Edge.mk "Method" "M.C.inner" "Function" "M.f") ∈
        processCallsForModule cfgPy ctxNested [] "M" nRootM ∧
      alookup (scannerRegistry cfgPy "M" nRootM) "M.C.inner" = none := by
  decide

/-- C2 counterexample: the wildcard entry `*w → a::b` was recorded with
a `::` separator and the dot-joined form `a::b.f` is registered, yet
the wildcard block probes only the `::`-joined form and misses; the
full resolver then answers through the suffix fallback with the
unrelated `zzz.f` instead of `a::b.f`. -/
theorem c2_wildcard_counterexample :
    wildcardResolve regWild [("*w", "a::b")] "f" = none ∧
      alookup regWild ("a::b" ++ "." ++ "f") = some "Function" ∧
      resolveFunctionCall ctxWild "f" "M" none none =
        some ("Function", "zzz.f") := by
  decide

/-- C2 (amended): for a wildcard entry whose target package QN was
recorded with a `::` separator, the resolver probes only the
`::`-joined form; both the `.`-joined and the `::`-joined forms are
probed (in that order) exactly when the target was recorded without a
`::` separator. -/
theorem c2_wildcard_amended (reg : List (String × String))
    (k iq cn kind : String) :
    (strStartsWith k "*" = true → hasColonColon iq = true →
      alookup reg (iq ++ "::" ++ cn) = none →
      wildcardResolve reg [(k, iq)] cn = none)
  ∧ (strStartsWith k "*" = true → hasColonColon iq = false →
      alookup reg (iq ++ "." ++ cn) = none →
      alookup reg (iq ++ "::" ++ cn) = some kind →
      wildcardResolve reg [(k, iq)] cn = some (kind, iq ++ "::" ++ cn))
  ∧ (strStartsWith k "*" = true → hasColonColon iq = false →
      alookup reg (iq ++ "." ++ cn) = some kind →
      wildcardResolve reg [(k, iq)] cn = some (kind, iq ++ "." ++ cn)) := by
  refine ⟨?_, ?_, ?_⟩
  · intro hk hcc hmiss
    simp [wildcardResolve, wildcardProbes, probeList, hk, hcc, hmiss]
  · intro hk hcc hm1 hh
    simp [wildcardResolve, wildcardProbes, probeList, hk, hcc, hm1, hh]
  · intro hk hcc hh
    simp [wildcardResolve, wildcardProbes, probeList, hk, hcc, hh]

theorem c2_wildcard_amended_witness :
    (wildcardResolve regWild [("*w", "a::b")] "f" = none) ∧
      (wildcardResolve [("p.util", "Function")] [("*w", "p")] "util" =
        some ("Function", "p.util")) :=
  ⟨(c2_wildcard_amended regWild "*w" "a::b" "f" "Function").1
      (by decide) (by decide) (by decide),
    (c2_wildcard_amended [("p.util", "Function")] "*w" "p" "util"
        "Function").2.2 (by decide) (by decide) (by decide)⟩

/-- C4 counterexample: module `proj.u` has no entry in the import
mapping; `r` is bound in the local variable types to `Repo`, which
`resolve_class_name` resolves to `proj.m.Repo`, and
`proj.m.Repo.find_by_id` is registered — yet the whole Phase 3 block is
skipped (it sits under the import-mapping guard) and the call resolves
to nothing. -/
theorem c4_no_import_entry_counterexample :
    alookup ctxNoImportEntry.functionRegistry "proj.m.Repo.find_by_id" =
        some "Method" ∧
      ctxNoImportEntry.resolveClassNameFn "Repo" "proj.u" =
        some "proj.m.Repo" ∧
      resolveFunctionCall ctxNoImportEntry "r.find_by_id" "proj.u"
        (some [("r", "Repo")]) none = none := by
  decide

/-- C4 (amended): the class-name-form resolution through
`local_var_types` holds only for enclosing modules that have an entry
in the import mapping; given such an entry, a call `Name.rest` with
`Name` absent from the import map but bound to a type that resolves to
a class QN (through the import map, or failing that through
`resolve_class_name`) whose `rest` method is registered resolves to
that method. -/
theorem c4_local_var_class_method (ctx : CallCtx)
    (callName moduleQn nm mrest T CQ k : String)
    (im : List (String × String)) (lvt : Option (List (String × String)))
    (cc : Option String)
    (hsup : strStartsWith callName "super()" = false)
    (hdot : containsChar callName '.' = true)
    (hnochain : isMethodChain callName = false)
    (hparts : splitDots callName = [nm, mrest])
    (himp : alookup ctx.importMapping moduleQn = some im)
    (hdirect : alookup im callName = none)
    (hclsimp : alookup im nm = none)
    (hlvt : lvtLookup lvt nm = some T)
    (hT : alookup im T = some CQ ∨
      (alookup im T = none ∧ ctx.resolveClassNameFn T moduleQn = some CQ))
    (hCQ : CQ ≠ "")
    (hreg : alookup ctx.functionRegistry (CQ ++ "." ++ mrest) = some k) :
    resolveFunctionCall ctx callName moduleQn lvt cc =
      some (k, CQ ++ "." ++ mrest) := by
  rw [resolveFunctionCall]
  rw [hsup]
  simp only [Bool.false_eq_true, if_false, hdot, hnochain, Bool.true_and,
    if_false]
  rw [importPhase, himp]
  simp only [directImportHit, hdirect]
  simp only [qualifiedDottedHit, hdot, if_true, hparts]
  simp only [List.length_cons, List.length_nil, List.headD_cons,
    List.tail_cons, intercalateStr]
  rw [if_neg (by omega)]
  simp only [hclsimp, hlvt]
  rcases hT with hT | ⟨hTn, hTr⟩
  · simp only [instanceMethodHit, hT]
    rw [if_neg hCQ]
    simp only [hreg]
    simp [orElseO]
  · simp only [instanceMethodHit, hTn, hTr]
    rw [if_neg hCQ]
    simp only [hreg]
    simp [orElseO]

theorem c4_local_var_class_method_witness :
    (resolveFunctionCall ctxImportEntry "r.find_by_id" "proj.u"
        (some [("r", "Repo")]) none =
      some ("Method", "proj.m.Repo" ++ "." ++ "find_by_id")) ∧
      resolveFunctionCall ctxClassNameRoute "r.find_by_id" "proj.u"
          (some [("r", "Repo")]) none =
        some ("Method", "proj.u.Repo" ++ "." ++ "find_by_id") :=
  ⟨c4_local_var_class_method ctxImportEntry "r.find_by_id" "proj.u" "r"
      "find_by_id" "Repo" "proj.m.Repo" "Method"
      [("Repo", "proj.m.Repo")] (some [("r", "Repo")]) none
      (by decide) (by decide) (by decide) (by decide) (by decide)
      (by decide) (by decide) (by decide) (Or.inl (by decide)) (by decide)
      (by decide),
    c4_local_var_class_method ctxClassNameRoute "r.find_by_id" "proj.u" "r"
      "find_by_id" "Repo" "proj.u.Repo" "Method"
      [] (some [("r", "Repo")]) none
      (by decide) (by decide) (by decide) (by decide) (by decide)
      (by decide) (by decide) (by decide)
      (Or.inr ⟨by decide, by decide⟩) (by decide) (by decide)⟩

theorem addNew_spec (gps : List String) :
    ∀ visited queue : List String,
      ∃ new, addNewParents visited queue gps = (visited ++ new, queue ++ new) ∧
        (∀ x ∈ new, x ∈ gps) ∧
        (visited.Nodup → (visited ++ new).Nodup) := by
  induction gps with
  | nil =>
    intro v q
    exact ⟨[], by simp [addNewParents], by simp, by simp⟩
  | cons g rest ih =>
    intro v q
    by_cases hgm : g ∈ v
    · have hg : v.contains g = true := by simpa using hgm
      obtain ⟨new, heq, hmem, hnd2⟩ := ih v q
      refine ⟨new, ?_, fun x hx => List.mem_cons_of_mem g (hmem x hx), hnd2⟩
      rw [addNewParents, if_pos hg]
      exact heq
    · have hg : ¬ v.contains g = true := by simpa using hgm
      obtain ⟨new, heq, hmem, hnd2⟩ := ih (v ++ [g]) (q ++ [g])
      refine ⟨g :: new, ?_, ?_, ?_⟩
      · rw [addNewParents, if_neg hg]
        rw [heq]
        simp
      · intro x hx
        rcases List.mem_cons.mp hx with h | h
        · exact h ▸ List.mem_cons_self g rest
        · exact List.mem_cons_of_mem g (hmem x h)
      · intro hnd
        have hnd1 : (v ++ [g]).Nodup := by
          simp [List.nodup_append, hnd, hgm]
        simpa using hnd2 hnd1

theorem alookup_mem_values {α : Type} {l : List (String × α)} {key : String}
    {v : α} (h : alookup l key = some v) : v ∈ l.map Prod.snd := by
  induction l with
  | nil => simp [alookup] at h
  | cons hd rest ih =>
    obtain ⟨k, w⟩ := hd
    rw [alookup] at h
    by_cases hk : k = key
    · rw [if_pos hk] at h
      cases h
      simp
    · rw [if_neg hk] at h
      simp [ih h]

theorem gps_subset_universe (ctx : CallCtx) (p : String) :
    ∀ x ∈ (alookup ctx.classInheritance p).getD [], x ∈ inhUniverse ctx := by
  intro x hx
  cases halo : alookup ctx.classInheritance p with
  | none => rw [halo] at hx; simp at hx
  | some l =>
    rw [halo] at hx
    simp only [Option.getD_some] at hx
    exact List.mem_flatten.mpr ⟨l, alookup_mem_values halo, hx⟩

theorem bfs_term (ctx : CallCtx) (mn : String) (S : Finset String)
    (hU : ∀ x ∈ inhUniverse ctx, x ∈ S) :
    ∀ fuel queue visited, visited.Nodup →
      (∀ v ∈ visited, v ∈ S) → (∀ q ∈ queue, q ∈ visited) →
      S.card - visited.length + queue.length < fuel →
      inheritedBFS ctx mn fuel queue visited ≠ none := by
  intro fuel
  induction fuel with
  | zero => intro queue visited _ _ _ h; omega
  | succ fuel ih =>
    intro queue visited hnd hvS hqv hm
    cases queue with
    | nil => simp [inheritedBFS]
    | cons p rest =>
      rw [inheritedBFS]
      cases halo : alookup ctx.functionRegistry (p ++ "." ++ mn) with
      | some k => simp [halo]
      | none =>
        simp only [halo]
        obtain ⟨new, heq, hmem, hnd2g⟩ :=
          addNew_spec ((alookup ctx.classInheritance p).getD []) visited rest
        have hnd2 := hnd2g hnd
        rw [heq]
        have hvlen : visited.length ≤ S.card := by
          have h1 : visited.toFinset ⊆ S := fun x hx =>
            hvS x (List.mem_toFinset.mp hx)
          have h2 := Finset.card_le_card h1
          rwa [List.toFinset_card_of_nodup hnd] at h2
        have hvnlen : visited.length + new.length ≤ S.card := by
          have h1 : (visited ++ new).toFinset ⊆ S := by
            intro x hx
            rcases List.mem_append.mp (List.mem_toFinset.mp hx) with h | h
            · exact hvS x h
            · exact hU x (gps_subset_universe ctx p x (hmem x h))
          have h2 := Finset.card_le_card h1
          rw [List.toFinset_card_of_nodup hnd2] at h2
          simpa using h2
        apply ih (rest ++ new) (visited ++ new) hnd2
        · intro x hx
          rcases List.mem_append.mp hx with h | h
          · exact hvS x h
          · exact hU x (gps_subset_universe ctx p x (hmem x h))
        · intro x hx
          rcases List.mem_append.mp hx with h | h
          · exact List.mem_append_left new (hqv x (List.mem_cons_of_mem p h))
          · exact List.mem_append_right visited h
        · simp only [List.length_append]
          simp only [List.length_cons] at hm
          omega

theorem bfs_first_hit (ctx : CallCtx) (mn P k : String)
    (hP : alookup ctx.functionRegistry (P ++ "." ++ mn) = some k) :
    ∀ pre, (∀ q ∈ pre, alookup ctx.functionRegistry (q ++ "." ++ mn) = none) →
      ∀ post visited fuel, pre.length + 1 ≤ fuel →
        inheritedBFS ctx mn fuel (pre ++ P :: post) visited =
          some (some (k, P ++ "." ++ mn)) := by
  intro pre
  induction pre with
  | nil =>
    intro _ post visited fuel hf2
    obtain ⟨f, rfl⟩ : ∃ f, fuel = f + 1 := ⟨fuel - 1, by omega⟩
    rw [List.nil_append]
    simp only [inheritedBFS, hP]
  | cons a pre ih =>
    intro hpre post visited fuel hf2
    obtain ⟨f, rfl⟩ : ∃ f, fuel = f + 1 := ⟨fuel - 1, by omega⟩
    rw [List.cons_append]
    simp only [inheritedBFS, hpre a (List.mem_cons_self a pre)]
    obtain ⟨new, heq, _, _⟩ :=
      addNew_spec ((alookup ctx.classInheritance a).getD []) visited
        (pre ++ P :: post)
    rw [heq]
    simp only []
    have : (pre ++ P :: post) ++ new = pre ++ P :: (post ++ new) := by
      simp
    rw [this]
    exact ih (fun q hq => hpre q (List.mem_cons_of_mem a hq))
      (post ++ new) (visited ++ new) f (by simp at hf2 ⊢; omega)

theorem bfs_sound (ctx : CallCtx) (mn root : String) :
    ∀ fuel queue visited r,
      (∀ x ∈ queue, IsAncestor ctx.classInheritance root x) →
      inheritedBFS ctx mn fuel queue visited = some (some r) →
      ∃ P, IsAncestor ctx.classInheritance root P ∧
        r.2 = P ++ "." ++ mn ∧
        alookup ctx.functionRegistry (P ++ "." ++ mn) = some r.1 := by
  intro fuel
  induction fuel with
  | zero => intro queue visited r _ h; simp [inheritedBFS] at h
  | succ fuel ih =>
    intro queue visited r hq hrun
    cases queue with
    | nil => simp [inheritedBFS] at hrun
    | cons p rest =>
      rw [inheritedBFS] at hrun
      cases halo : alookup ctx.functionRegistry (p ++ "." ++ mn) with
      | some k =>
        rw [halo] at hrun
        simp only [Option.some.injEq] at hrun
        refine ⟨p, hq p (List.mem_cons_self p rest), ?_, ?_⟩
        · rw [← hrun]
        · rw [← hrun]; exact halo
      | none =>
        rw [halo] at hrun
        dsimp only at hrun
        obtain ⟨new, heq, hmem, _⟩ :=
          addNew_spec ((alookup ctx.classInheritance p).getD []) visited rest
        rw [heq] at hrun
        apply ih (rest ++ new) (visited ++ new) r ?_ hrun
        intro x hx
        rcases List.mem_append.mp hx with h | h
        · exact hq x (List.mem_cons_of_mem p h)
        · cases hpar : alookup ctx.classInheritance p with
          | none =>
            exfalso
            have := hmem x h
            rw [hpar] at this
            simp at this
          | some l =>
            have hxl : x ∈ l := by
              have := hmem x h
              rwa [hpar, Option.getD_some] at this
            exact IsAncestor.step (hq p (List.mem_cons_self p rest)) hpar hxl

theorem inheritedBFS_total (ctx : CallCtx) (classQn methodName : String)
    (parents : List String)
    (hpar : (alookup ctx.classInheritance classQn).getD [] = parents) :
    inheritedBFS ctx methodName (inheritedFuel ctx classQn)
      parents parents.dedup ≠ none := by
  set U := inhUniverse ctx with hUdef
  apply bfs_term ctx methodName (parents ++ U).toFinset
  · intro x hx
    exact List.mem_toFinset.mpr (List.mem_append_right parents hx)
  · exact List.nodup_dedup parents
  · intro v hv
    exact List.mem_toFinset.mpr
      (List.mem_append_left U (List.mem_dedup.mp hv))
  · intro q hq
    exact List.mem_dedup.mpr hq
  · have h1 : (parents ++ U).toFinset.card ≤
        parents.dedup.length + U.length := by
      rw [List.toFinset_append]
      calc (parents.toFinset ∪ U.toFinset).card
          ≤ parents.toFinset.card + U.toFinset.card :=
            Finset.card_union_le _ _
        _ ≤ parents.dedup.length + U.length := by
            rw [List.card_toFinset]
            exact Nat.add_le_add_left (List.toFinset_card_le U) _
    rw [inheritedFuel, ← hUdef, hpar]
    omega

theorem resolveInherited_first (ctx : CallCtx) (classQn methodName : String)
    (pre post : List String) (P k : String)
    (halo : alookup ctx.classInheritance classQn = some (pre ++ P :: post))
    (hpre : ∀ q ∈ pre,
      alookup ctx.functionRegistry (q ++ "." ++ methodName) = none)
    (hP : alookup ctx.functionRegistry (P ++ "." ++ methodName) = some k) :
    resolveInheritedMethod ctx classQn methodName =
      some (k, P ++ "." ++ methodName) := by
  simp only [resolveInheritedMethod, halo]
  rw [bfs_first_hit ctx methodName P k hP pre hpre post
    (pre ++ P :: post).dedup (inheritedFuel ctx classQn) ?_]
  have : (alookup ctx.classInheritance classQn).getD [] =
      pre ++ P :: post := by rw [halo]; rfl
  rw [inheritedFuel, this]
  simp only [List.length_append, List.length_cons]
  omega

/-- C6: the inheritance walk terminates on every class-inheritance
table (the supplied fuel is never exhausted, cyclic parent relations
included); the first declared parent whose method is registered wins;
and when no ancestor (under the reachability closure of the table) has
the method, the walk returns `None`. -/
theorem c6_inheritance_walk (ctx : CallCtx) (classQn methodName : String) :
    inheritedBFS ctx methodName (inheritedFuel ctx classQn)
        ((alookup ctx.classInheritance classQn).getD [])
        ((alookup ctx.classInheritance classQn).getD []).dedup ≠ none
  ∧ (∀ pre P post k,
      alookup ctx.classInheritance classQn = some (pre ++ P :: post) →
      (∀ q ∈ pre,
        alookup ctx.functionRegistry (q ++ "." ++ methodName) = none) →
      alookup ctx.functionRegistry (P ++ "." ++ methodName) = some k →
      resolveInheritedMethod ctx classQn methodName =
        some (k, P ++ "." ++ methodName))
  ∧ ((∀ P, IsAncestor ctx.classInheritance classQn P →
        alookup ctx.functionRegistry (P ++ "." ++ methodName) = none) →
      resolveInheritedMethod ctx classQn methodName = none) := by
  refine ⟨inheritedBFS_total ctx classQn methodName _ rfl, ?_, ?_⟩
  · intro pre P post k halo hpre hP
    exact resolveInherited_first ctx classQn methodName pre post P k
      halo hpre hP
  · intro hmiss
    rw [resolveInheritedMethod]
    cases halo : alookup ctx.classInheritance classQn with
    | none => rfl
    | some parents =>
      have hpar : (alookup ctx.classInheritance classQn).getD [] =
          parents := by rw [halo]; rfl
      have hne := inheritedBFS_total ctx classQn methodName parents hpar
      cases hrun : inheritedBFS ctx methodName (inheritedFuel ctx classQn)
          parents parents.dedup with
      | none => exact absurd hrun hne
      | some res =>
        cases res with
        | none =>
          dsimp only
          rw [hrun]
        | some rr =>
          exfalso
          obtain ⟨P, hanc, _, hlook⟩ :=
            bfs_sound ctx methodName classQn (inheritedFuel ctx classQn)
              parents parents.dedup rr
              (fun x hx => IsAncestor.direct halo hx) hrun
          rw [hmiss P hanc] at hlook
          exact Option.noConfusion hlook

theorem c6_inheritance_walk_witness :
    (inheritedBFS ctxCyc "start_engine" (inheritedFuel ctxCyc "p.v.Car")
        ((alookup ctxCyc.classInheritance "p.v.Car").getD [])
        ((alookup ctxCyc.classInheritance "p.v.Car").getD []).dedup ≠
      none) ∧
      resolveInheritedMethod ctxCyc "p.v.Car" "start_engine" =
        some ("Method", "p.v.Vehicle" ++ "." ++ "start_engine") :=
  ⟨(c6_inheritance_walk ctxCyc "p.v.Car" "start_engine").1,
    (c6_inheritance_walk ctxCyc "p.v.Car" "start_engine").2.1
      [] "p.v.Vehicle" [] "Method" (by decide) (by simp) (by decide)⟩

/-- C7: a `super().method_name` call with no class context resolves to
nothing; with a class context whose inheritance entry lists a parent
(the first one probed successfully) whose `method_name` is registered,
it resolves to that parent's method QN. -/
theorem c7_super_call (ctx : CallCtx) (callName moduleQn mn C P k : String)
    (pre post : List String) :
    resolveSuperCall ctx callName moduleQn none = none
  ∧ (superMethodName callName = some mn → C ≠ "" →
      alookup ctx.classInheritance C = some (pre ++ P :: post) →
      (∀ q ∈ pre, alookup ctx.functionRegistry (q ++ "." ++ mn) = none) →
      alookup ctx.functionRegistry (P ++ "." ++ mn) = some k →
      resolveSuperCall ctx callName moduleQn (some C) =
        some (k, P ++ "." ++ mn)) := by
  constructor
  · cases h : superMethodName callName <;> simp [resolveSuperCall, h]
  · intro hsm hC halo hpre hP
    simp only [resolveSuperCall, hsm]
    rw [if_neg hC]
    simp only [halo]
    rw [if_neg (by simp)]
    exact resolveInherited_first ctx C mn pre post P k halo hpre hP

theorem c7_super_call_witness :
    resolveSuperCall ctxCar "super().start_engine" "project.v" none = none ∧
      resolveSuperCall ctxCar "super().start_engine" "project.v"
          (some "project.v.Car") =
        some ("Method", "project.v.Vehicle" ++ "." ++ "start_engine") :=
  ⟨(c7_super_call ctxCar "super().start_engine" "project.v" "start_engine"
      "project.v.Car" "project.v.Vehicle" "Method" [] []).1,
    (c7_super_call ctxCar "super().start_engine" "project.v" "start_engine"
        "project.v.Car" "project.v.Vehicle" "Method" [] []).2
      (by decide) (by decide) (by decide) (by simp) (by decide)⟩

/-- C9: the super-call phase and the method-chain phase are terminal
even on a miss — when `call_name` begins with `super()` the resolver
returns exactly the super phase's result, and when it contains a dot
and classifies as a method chain the resolver returns exactly the
chain phase's result, so a `None` from that phase is the overall
answer and no later phase is consulted. -/
theorem c9_terminal_phases (ctx : CallCtx) (cn moduleQn : String)
    (lvt : Option (List (String × String))) (cc : Option String) :
    (strStartsWith cn "super()" = true →
      resolveFunctionCall ctx cn moduleQn lvt cc =
        resolveSuperCall ctx cn moduleQn cc)
  ∧ (strStartsWith cn "super()" = false →
      containsChar cn '.' = true → isMethodChain cn = true →
      resolveFunctionCall ctx cn moduleQn lvt cc =
        resolveChainedCall ctx cn moduleQn lvt) := by
  constructor
  · intro h
    rw [resolveFunctionCall, h]
    simp
  · intro h1 h2 h3
    rw [resolveFunctionCall, h1]
    simp [h2, h3]

theorem c9_terminal_phases_witness :
    resolveFunctionCall ctxTriv "super().x" "M" none none =
        resolveSuperCall ctxTriv "super().x" "M" none ∧
      resolveFunctionCall ctxTriv "a().b" "M" none none =
        resolveChainedCall ctxTriv "a().b" "M" none :=
  ⟨(c9_terminal_phases ctxTriv "super().x" "M" none none).1 (by decide),
    (c9_terminal_phases ctxTriv "a().b" "M" none none).2
      (by decide) (by decide) (by decide)⟩

/-- C8: when the resolver returns `None` for a call site, that site
contributes no CALLS edge of its own (only its nested descent), and
the sites before and after it are processed exactly as they would
otherwise be. -/
theorem c8_resolution_miss (ctx : CallCtx)
    (callerQn callerType moduleQn cn : String)
    (lvt : Option (List (String × String))) (cc : Option String)
    (c : PNode) (pre post : List PNode)
    (hname : getCallTargetName c = some cn)
    (hres : resolveFunctionCall ctx cn moduleQn lvt cc = none) :
    ingestLoop ctx callerQn callerType moduleQn lvt cc (pre ++ c :: post) =
      ingestLoop ctx callerQn callerType moduleQn lvt cc pre ++
        (callSiteNestedEdges ctx callerQn callerType moduleQn lvt cc c ++
          ingestLoop ctx callerQn callerType moduleQn lvt cc post) := by
  induction pre with
  | nil =>
    simp only [List.nil_append, ingestLoop, callSiteEdges, hname, hres]
    by_cases hcn : cn = "" <;> simp [hcn]
  | cons a pre ih =>
    simp only [List.cons_append, ingestLoop, List.append_eq, ih,
      List.append_assoc]

theorem c8_resolution_miss_witness :
    ingestLoop ctxG "M.caller" "Function" "M" (some []) none
        ([] ++ nCallH :: [nCallG]) =
      ingestLoop ctxG "M.caller" "Function" "M" (some []) none [] ++
        (callSiteNestedEdges ctxG "M.caller" "Function" "M" (some [])
            none nCallH ++
          ingestLoop ctxG "M.caller" "Function" "M" (some []) none
            [nCallG]) :=
  c8_resolution_miss ctxG "M.caller" "Function" "M" "h" (some []) none
    nCallH [] [nCallG] (by decide) (by decide)

theorem subtree_self : ∀ n : PNode, n ∈ subtreeNodes n := by
  intro n
  cases n with
  | node t s ch => rw [subtreeNodes]; exact List.mem_cons_self _ _

theorem mem_subtreeNodesL_iff {x : PNode} :
    ∀ {ch : List (Option String × PNode)},
      x ∈ subtreeNodesL ch ↔ ∃ p ∈ ch, x ∈ subtreeNodes p.2 := by
  intro ch
  induction ch with
  | nil => simp [subtreeNodesL]
  | cons hd rest ih =>
    rw [subtreeNodesL]
    simp only [List.mem_append, ih, List.mem_cons]
    constructor
    · rintro (h | ⟨p, hp, hx⟩)
      · exact ⟨hd, Or.inl rfl, h⟩
      · exact ⟨p, Or.inr hp, hx⟩
    · rintro ⟨p, hp | hp, hx⟩
      · subst hp; exact Or.inl hx
      · exact Or.inr ⟨p, hp, hx⟩

theorem pnode_sizeOf_pos (n : PNode) : 0 < sizeOf n := by
  cases n with
  | node t s ch => simp only [PNode.node.sizeOf_spec]; omega

theorem mem_subtree_sizeOf {x : PNode} :
    ∀ N (n : PNode), sizeOf n ≤ N → x ∈ subtreeNodes n →
      sizeOf x ≤ sizeOf n := by
  intro N
  induction N with
  | zero =>
    intro n hn _
    have := pnode_sizeOf_pos n
    omega
  | succ N ih =>
    intro n hn hx
    cases n with
    | node t s ch =>
      rw [subtreeNodes] at hx
      rcases List.mem_cons.mp hx with h | h
      · subst h; rfl
      · obtain ⟨p, hp, hxp⟩ := mem_subtreeNodesL_iff.mp h
        have hps : sizeOf p.2 < sizeOf ch := by
          have h1 := List.sizeOf_lt_of_mem hp
          obtain ⟨o, c⟩ := p
          simp only [Prod.mk.sizeOf_spec] at h1 ⊢
          omega
        have hchn : sizeOf ch < sizeOf (PNode.node t s ch) := by
          simp only [PNode.node.sizeOf_spec]; omega
        have := ih p.2 (by omega) hxp
        omega

theorem subtree_trans {x b : PNode} :
    ∀ N (c : PNode), sizeOf c ≤ N → x ∈ subtreeNodes b →
      b ∈ subtreeNodes c → x ∈ subtreeNodes c := by
  intro N
  induction N with
  | zero =>
    intro c hc _ _
    have := pnode_sizeOf_pos c
    omega
  | succ N ih =>
    intro c hc hxb hbc
    cases c with
    | node t s ch =>
      rw [subtreeNodes] at hbc ⊢
      rcases List.mem_cons.mp hbc with h | h
      · subst h; exact hxb
      · obtain ⟨p, hp, hbp⟩ := mem_subtreeNodesL_iff.mp h
        have hps : sizeOf p.2 < sizeOf ch := by
          have h1 := List.sizeOf_lt_of_mem hp
          obtain ⟨o, c2⟩ := p
          simp only [Prod.mk.sizeOf_spec] at h1 ⊢
          omega
        have hchn : sizeOf ch < sizeOf (PNode.node t s ch) := by
          simp only [PNode.node.sizeOf_spec]; omega
        exact List.mem_cons_of_mem _
          (mem_subtreeNodesL_iff.mpr ⟨p, hp, ih p.2 (by omega) hxb hbp⟩)

theorem fieldLookup_mem :
    ∀ {ch : List (Option String × PNode)} {name : String} {c : PNode},
      fieldLookup ch name = some c → (some name, c) ∈ ch := by
  intro ch
  induction ch with
  | nil => intro name c h; simp [fieldLookup] at h
  | cons hd rest ih =>
    intro name c h
    obtain ⟨o, p⟩ := hd
    cases o with
    | none =>
      rw [fieldLookup] at h
      exact List.mem_cons_of_mem _ (ih h)
    | some k =>
      rw [fieldLookup] at h
      by_cases hk : k = name
      · subst hk
        rw [if_pos rfl] at h
        cases h
        exact List.mem_cons_self _ _
      · rw [if_neg hk] at h
        exact List.mem_cons_of_mem _ (ih h)

theorem field_mem_subtree {n fc : PNode} {name : String}
    (h : n.field name = some fc) : fc ∈ subtreeNodes n := by
  cases n with
  | node t s ch =>
    rw [subtreeNodes]
    apply List.mem_cons_of_mem
    exact mem_subtreeNodesL_iff.mpr
      ⟨(some name, fc), fieldLookup_mem h, subtree_self fc⟩

theorem mem_nestedCallEdgesL (ctx : CallCtx)
    (callerQn callerType moduleQn : String)
    (lvt : Option (List (String × String))) (cc : Option String)
    {e : Edge} {c : PNode} {o : Option String} :
    ∀ {ch : List (Option String × PNode)}, (o, c) ∈ ch →
      e ∈ nestedCallEdges ctx callerQn callerType moduleQn lvt cc c →
      e ∈ nestedCallEdgesL ctx callerQn callerType moduleQn lvt cc ch := by
  intro ch
  induction ch with
  | nil => intro h _; simp at h
  | cons hd rest ih =>
    intro hmem he
    obtain ⟨o2, c2⟩ := hd
    rw [nestedCallEdgesL]
    rcases List.mem_cons.mp hmem with h | h
    · have hc : c2 = c := by
        injection h with h1 h2
        exact h2.symm
      subst hc
      exact List.mem_append_left _ he
    · exact List.mem_append_right _ (ih h he)

theorem mem_nestedCallEdges (ctx : CallCtx)
    (callerQn callerType moduleQn : String)
    (lvt : Option (List (String × String))) (cc : Option String)
    (inner : PNode) (cn k qn : String)
    (htype : inner.ntype = "call")
    (hname : getCallTargetName inner = some cn)
    (hcn : cn ≠ "")
    (hres : resolveFunctionCall ctx cn moduleQn lvt cc = some (k, qn)) :
    ∀ N (n : PNode), sizeOf n ≤ N → inner ∈ subtreeNodes n →
      Edge.mk callerType callerQn k qn ∈
        nestedCallEdges ctx callerQn callerType moduleQn lvt cc n := by
  intro N
  induction N with
  | zero =>
    intro n hn _
    have := pnode_sizeOf_pos n
    omega
  | succ N ih =>
    intro n hn hmem
    cases n with
    | node t s ch =>
      rw [subtreeNodes] at hmem
      rw [nestedCallEdges]
      rcases List.mem_cons.mp hmem with h | h
      · have ht : t = "call" := by
          rw [h] at htype
          simpa [PNode.ntype] using htype
        subst ht
        apply List.mem_append_left
        rw [if_pos rfl]
        apply List.mem_append_right
        have hname2 : getCallTargetName (PNode.node "call" s ch) = some cn := by
          rw [← h]; exact hname
        rw [hname2]
        dsimp only
        rw [if_neg hcn, hres]
        simp
      · apply List.mem_append_right
        obtain ⟨p, hp, hxp⟩ := mem_subtreeNodesL_iff.mp h
        have hps : sizeOf p.2 < sizeOf ch := by
          have h1 := List.sizeOf_lt_of_mem hp
          obtain ⟨o, c2⟩ := p
          simp only [Prod.mk.sizeOf_spec] at h1 ⊢
          omega
        have hchn : sizeOf ch < sizeOf (PNode.node t s ch) := by
          simp only [PNode.node.sizeOf_spec]; omega
        obtain ⟨o, c2⟩ := p
        exact mem_nestedCallEdgesL ctx callerQn callerType moduleQn lvt cc
          hp (ih c2 (by simp only [Prod.mk.sizeOf_spec] at hps; omega) hxp)

theorem ingestLoop_eq_flatMap (ctx : CallCtx)
    (callerQn callerType moduleQn : String)
    (lvt : Option (List (String × String))) (cc : Option String) :
    ∀ l : List PNode,
      ingestLoop ctx callerQn callerType moduleQn lvt cc l =
        l.flatMap (callSiteEdges ctx callerQn callerType moduleQn lvt cc) := by
  intro l
  induction l with
  | nil => rw [ingestLoop]; simp
  | cons c rest ih => rw [ingestLoop, ih]; simp

theorem count_le_flatMap {α β : Type} [DecidableEq β] (f : α → List β)
    (e : β) : ∀ (l : List α) (a : α), a ∈ l →
      List.count e (f a) ≤ List.count e (l.flatMap f) := by
  intro l
  induction l with
  | nil => intro a h; simp at h
  | cons hd rest ih =>
    intro a h
    rw [List.flatMap_cons, List.count_append]
    rcases List.mem_cons.mp h with h | h
    · subst h; omega
    · have := ih a h; omega

theorem count_pair_le_flatMap {α β : Type} [DecidableEq β] (f : α → List β)
    (e : β) : ∀ (l : List α) (a b : α), a ∈ l → b ∈ l → a ≠ b →
      List.count e (f a) + List.count e (f b) ≤
        List.count e (l.flatMap f) := by
  intro l
  induction l with
  | nil => intro a b h; simp at h
  | cons hd rest ih =>
    intro a b ha hb hne
    rw [List.flatMap_cons, List.count_append]
    rcases List.mem_cons.mp ha with ha2 | ha2
    · subst ha2
      rcases List.mem_cons.mp hb with hb2 | hb2
      · exact absurd hb2.symm hne
      · have := count_le_flatMap f e rest b hb2; omega
    · rcases List.mem_cons.mp hb with hb2 | hb2
      · subst hb2
        have := count_le_flatMap f e rest a ha2; omega
      · have := ih a b ha2 hb2 hne; omega

/-- C10: a resolvable inner call sitting inside the callee attribute
expression of an outer captured call has its CALLS edge emitted at
least twice in one ingest run: once by the nested-call descent of the
outer site and once when the inner call is processed as its own
capture (the downstream writer is the one that de-duplicates). -/
theorem c10_nested_call_double_emission (cfg : LangCfg) (ctx : CallCtx)
    (localTypes : List (String × String)) (callerNode outer fc inner : PNode)
    (callerQn callerType moduleQn cn k qn : String) (cc : Option String)
    (houter : outer ∈ subtreeNodes callerNode)
    (houterTy : cfg.callNodeTypes.contains outer.ntype = true)
    (hfc : outer.field "function" = some fc)
    (hfcTy : fc.ntype = "attribute")
    (hinner : inner ∈ subtreeNodes fc)
    (hinnerTy : inner.ntype = "call")
    (hcallTy : cfg.callNodeTypes.contains "call" = true)
    (hname : getCallTargetName inner = some cn)
    (hcn : cn ≠ "")
    (hres : resolveFunctionCall ctx cn moduleQn
      (some localTypes) cc = some (k, qn)) :
    2 ≤ List.count (Edge.mk callerType callerQn k qn)
      (ingestFunctionCalls cfg ctx localTypes callerNode callerQn
        callerType moduleQn cc) := by
  set e := Edge.mk callerType callerQn k qn with hedef
  set lvt : Option (List (String × String)) := some localTypes with hlvt
  -- the edge occurs in the nested descent of the outer site
  have hmemFc : e ∈ nestedCallEdges ctx callerQn callerType moduleQn lvt cc fc :=
    mem_nestedCallEdges ctx callerQn callerType moduleQn lvt cc inner cn k qn
      hinnerTy hname hcn hres (sizeOf fc) fc le_rfl hinner
  have houterCount : 1 ≤ List.count e
      (callSiteEdges ctx callerQn callerType moduleQn lvt cc outer) := by
    rw [callSiteEdges, List.count_append]
    have : e ∈ callSiteNestedEdges ctx callerQn callerType moduleQn lvt cc
        outer := by
      rw [callSiteNestedEdges, hfc]
      dsimp only
      rw [if_pos hfcTy]
      exact hmemFc
    have := List.count_pos_iff.mpr this
    omega
  -- the edge occurs as the inner site's own edge
  have hinnerCount : 1 ≤ List.count e
      (callSiteEdges ctx callerQn callerType moduleQn lvt cc inner) := by
    rw [callSiteEdges, List.count_append]
    have : e ∈ (match getCallTargetName inner with
      | some cn2 =>
        if cn2 = "" then []
        else
          match resolveFunctionCall ctx cn2 moduleQn lvt cc with
          | some kq => [Edge.mk callerType callerQn kq.1 kq.2]
          | none => []
      | none => []) := by
      rw [hname]
      dsimp only
      rw [if_neg hcn, hres]
      simp [hedef]
    have := List.count_pos_iff.mpr this
    omega
  -- both sites are captured, and they are distinct
  have hfcmem : fc ∈ subtreeNodes outer := field_mem_subtree hfc
  have hinnerCaller : inner ∈ subtreeNodes callerNode :=
    subtree_trans (sizeOf callerNode) callerNode le_rfl
      (subtree_trans (sizeOf outer) outer le_rfl hinner hfcmem) houter
  have hdist : inner ≠ outer := by
    intro heq
    have h1 : sizeOf inner ≤ sizeOf fc :=
      mem_subtree_sizeOf (sizeOf fc) fc le_rfl hinner
    have h2 : sizeOf fc < sizeOf outer := by
      cases outer with
      | node t s ch =>
        have h3 : fieldLookup ch "function" = some fc := hfc
        have := fieldLookup_sizeOf h3
        simp only [PNode.node.sizeOf_spec]
        omega
    rw [heq] at h1
    omega
  -- assemble
  rw [ingestFunctionCalls, ingestLoop_eq_flatMap]
  rw [← hlvt]
  have houterF : outer ∈ (subtreeNodes callerNode).filter
      (fun m => cfg.callNodeTypes.contains m.ntype) :=
    List.mem_filter.mpr ⟨houter, houterTy⟩
  have hinnerF : inner ∈ (subtreeNodes callerNode).filter
      (fun m => cfg.callNodeTypes.contains m.ntype) :=
    List.mem_filter.mpr ⟨hinnerCaller, by rw [hinnerTy]; exact hcallTy⟩
  have := count_pair_le_flatMap
    (callSiteEdges ctx callerQn callerType moduleQn lvt cc) e
    ((subtreeNodes callerNode).filter
      (fun m => cfg.callNodeTypes.contains m.ntype))
    outer inner houterF hinnerF (fun hh => hdist hh.symm)
  omega

theorem c10_nested_call_double_emission_witness :
    2 ≤ List.count (Edge.mk "Function" "M.h" "Function" "M.f")
      (ingestFunctionCalls cfgPy ctxF [] nCallerH "M.h" "Function" "M"
        none) :=
  c10_nested_call_double_emission cfgPy ctxF [] nCallerH nOuterFG nAttrFG
    nCallF "M.h" "Function" "M" "f" "Function" "M.f" none
    (by decide) (by decide) (by decide) (by decide) (by decide) (by decide)
    (by decide) (by decide) (by decide) (by decide)
